import Mathlib

/-!
Shallow embedding of the transition-model core of the `tour` repository
(`src/sim.py` and `src/app.py`): the model-building loop over traveler
paths, the derived probability views, the interactive step, the top-N
query, the autonomous simulator (start / tick), and the historical
traveler lookup.  Places are modelled as strings, counts as naturals,
probabilities as rationals.
-/

namespace Tour

/-- A traveler path: the time-ordered list of places one traveler visited
(`places = group["placeOfVisit"].tolist()` in the source). -/
abbrev Path := List String

/-- The three count tables filled by the build loop in `sim.py` lines 20-28
(`app.py` lines 17-27 builds the first two identically).  Dicts of counters
are modelled as total functions that are zero outside the recorded keys. -/
structure Tables where
  memoryless : String → String → Nat
  pathBased : List String → String → Nat
  firstCity : String → Nat

/-- Initial state of the three defaultdict counter tables. -/
def Tables.empty : Tables := ⟨fun _ _ => 0, fun _ _ => 0, fun _ => 0⟩

/-- The increment `memoryless_transitions[a][b] += 1`. -/
def bumpMem (f : String → String → Nat) (a b : String) : String → String → Nat :=
  fun x y => if x = a ∧ y = b then f x y + 1 else f x y

/-- The increment `path_based_transitions[k][b] += 1`, keyed by a tuple of places. -/
def bumpPath (f : List String → String → Nat) (k : List String) (b : String) :
    List String → String → Nat :=
  fun x y => if x = k ∧ y = b then f x y + 1 else f x y

/-- The increment `first_city_counts[c] += 1`. -/
def bumpCity (f : String → Nat) (c : String) : String → Nat :=
  fun x => if x = c then f x + 1 else f x

/-- Inner loop of the builder, `for i in range(len(places) - 1)` in `sim.py`
lines 25-28: at step `i` the remaining list is `places[i:]`, and `pref`
holds the already-walked `places[:i]`; the loop increments
`memoryless_transitions[places[i]][places[i+1]]` and
`path_based_transitions[tuple(places[:i+1])][places[i+1]]`. -/
def buildPath (t : Tables) (pref : List String) : List String → Tables
  | a :: b :: rest =>
      buildPath
        { t with
            memoryless := bumpMem t.memoryless a b
            pathBased := bumpPath t.pathBased (pref ++ [a]) b }
        (pref ++ [a]) (b :: rest)
  | _ => t

/-- Body of the outer build loop for one traveler path, `sim.py` lines 23-28:
bump the first-city counter when the path is non-empty (`if places:`), then
run the inner pair loop from an empty walked history. -/
def buildStep (t : Tables) (p : Path) : Tables :=
  buildPath
    (match p.head? with
      | some c => { t with firstCity := bumpCity t.firstCity c }
      | none => t)
    [] p

/-- Outer loop of the builder, `sim.py` lines 20-28: fold the per-path body
over all traveler paths, starting from empty counter tables. -/
def buildTables (paths : List Path) : Tables :=
  paths.foldl buildStep Tables.empty

/-- Adjacent pairs `(places[i], places[i+1])` of a path, in loop order. -/
def adjPairs (p : Path) : List (String × String) := p.zip p.tail

/-- The (history, next) pairs of a path as the specification words them: for
each `k` from `1` to `n` (path `[c0, ..., cn]`), the pair of the entire
walked history `(c0..c_(k-1))` and the next place `ck`. -/
def histSteps (p : Path) : List (List String × String) :=
  (List.range (p.length - 1)).map fun i => (p.take (i + 1), p.getD (i + 1) "")

/-- History pairs as the inner build loop produces them, carrying the
already-walked accumulator. -/
def stepsFrom (pref : List String) : List String → List (List String × String)
  | a :: b :: rest => (pref ++ [a], b) :: stepsFrom (pref ++ [a]) (b :: rest)
  | _ => []

/-- Keys of the inner dict `memoryless_transitions[a]`: the distinct places
recorded as a next step out of `a`.  A Python dict keeps its keys in first
insertion order; only the set of keys matters to the claims (the spec calls
the iteration order incidental), so the distinct places are collected with
`dedup`. -/
def memSupport (paths : List Path) (a : String) : List String :=
  (((paths.flatMap adjPairs).filter fun q => q.1 == a).map Prod.snd).dedup

/-- The denominator `sum(transitions.values())` of `sim.py` line 34 for the
source place `a`: the sum of the recorded counts over the keys of its dict. -/
def memTotal (paths : List Path) (a : String) : Nat :=
  ((memSupport paths a).map ((buildTables paths).memoryless a)).sum

/-- The normalized view `memoryless_probabilities[a][b]` of `sim.py`
lines 33-36: count divided by the total outgoing count of `a`. -/
def memProb (paths : List Path) (a b : String) : ℚ :=
  ((buildTables paths).memoryless a b : ℚ) / (memTotal paths a : ℚ)

/-- Keys of the inner dict `path_based_transitions[k]` for a history key `k`. -/
def pathSupport (paths : List Path) (k : List String) : List String :=
  (((paths.flatMap histSteps).filter fun q => q.1 == k).map Prod.snd).dedup

/-- The denominator `sum(transitions.values())` of `sim.py` line 38 for the
history key `k`. -/
def pathTotal (paths : List Path) (k : List String) : Nat :=
  ((pathSupport paths k).map ((buildTables paths).pathBased k)).sum

/-- The normalized view `path_based_probabilities[k][b]` of `sim.py`
lines 37-40. -/
def pathProb (paths : List Path) (k : List String) (b : String) : ℚ :=
  ((buildTables paths).pathBased k b : ℚ) / (pathTotal paths k : ℚ)

/-- Keys of `first_city_counts`: the distinct first places of the non-empty
traveler paths. -/
def firstSupport (paths : List Path) : List String :=
  (paths.filterMap List.head?).dedup

/-- The denominator `first_city_total = sum(first_city_counts.values())` of
`sim.py` line 31. -/
def firstTotal (paths : List Path) : Nat :=
  ((firstSupport paths).map (buildTables paths).firstCity).sum

/-- The normalized view `first_city_probs[c]` of `sim.py` line 32. -/
def firstProb (paths : List Path) (c : String) : ℚ :=
  ((buildTables paths).firstCity c : ℚ) / (firstTotal paths : ℚ)

/-- The two transition models offered by the mode dropdown. -/
inductive Mode where
  | memoryless
  | pathBased
deriving DecidableEq

/-- Session state of the interactive walker (the `path-memory` store of
`app.py`): the visited places and the current city, after the session has
been started from a selected city. -/
structure Session where
  visited : List String
  current : String
deriving DecidableEq

/-- The keys of the active distribution consulted by the walker, `app.py`
lines 88-92 and line 120: `transition_paths.get(tuple(visited), {})` in
path-based mode, `memoryless_transitions.get(current, {})` in memoryless
mode. -/
def stepSupport (paths : List Path) (mode : Mode) (s : Session) : List String :=
  match mode with
  | .pathBased => pathSupport paths s.visited
  | .memoryless => memSupport paths s.current

/-- The count stored in the active distribution for a candidate place (zero
when the candidate is not a key). -/
def activeCount (paths : List Path) (mode : Mode) (s : Session) (cand : String) : Nat :=
  match mode with
  | .pathBased => (buildTables paths).pathBased s.visited cand
  | .memoryless => (buildTables paths).memoryless s.current cand

/-- The click-handling step of `update_map`, `app.py` lines 85-98: when the
clicked city is a key of the active distribution, append it to the visited
list and make it current; otherwise leave the session unchanged. -/
def step (paths : List Path) (mode : Mode) (s : Session) (cand : String) : Session :=
  if cand ∈ stepSupport paths mode s then ⟨s.visited ++ [cand], cand⟩ else s

/-- The (place, count) items of the active distribution, `app.py` line 120. -/
def distEntries (paths : List Path) (mode : Mode) (s : Session) : List (String × Nat) :=
  (stepSupport paths mode s).map fun b => (b, activeCount paths mode s b)

/-- The denominator `total_transitions = sum(next_destinations.values())` of
`app.py` line 121. -/
def totalTransitions (paths : List Path) (mode : Mode) (s : Session) : Nat :=
  ((distEntries paths mode s).map Prod.snd).sum

/-- The top-N query of `app.py` line 122: sort the items by count descending
and keep the first 5. -/
def topDestinations (paths : List Path) (mode : Mode) (s : Session) : List (String × Nat) :=
  ((distEntries paths mode s).mergeSort fun e f => Nat.ble f.2 e.2).take 5

/-- The percentage computed for each displayed destination, `app.py`
line 125: `(count / total_transitions) * 100 if total_transitions > 0 else 0`. -/
def sharePercent (paths : List Path) (mode : Mode) (s : Session) (count : Nat) : ℚ :=
  if 0 < totalTransitions paths mode s then
    ((count : ℚ) / (totalTransitions paths mode s : ℚ)) * 100
  else 0

/-- Session state of the autonomous simulator (the `path-memory` store of
`sim.py` line 64). -/
structure SimSession where
  visited : List String
  current : String
  active : Bool
  mode : Mode
deriving DecidableEq

/-- Modelled from the spec: the source draws with the Python standard library
call `random.choices(population, weights)` (`sim.py` lines 95 and 156), whose
code is not part of this repository; the spec defines the draw as standard
categorical sampling - draw uniformly in `[0, total)`, walk cumulative
weights in iteration order, and return the first place whose cumulative
weight exceeds the draw.  The uniform draw `r` is passed explicitly; the walk
subtracts each skipped weight from `r`, so the test `r < w` holds exactly
when the cumulative weight up to this entry exceeds the original draw. -/
def weightedPick : List (String × ℚ) → ℚ → Option String
  | [], _ => none
  | (c, w) :: rest, r => if r < w then some c else weightedPick rest (r - w)

/-- The population and weights of the starting draw, `sim.py` line 95:
`random.choices(list(first_city_probs.keys()), weights=first_city_probs.values())`. -/
def firstEntries (paths : List Path) : List (String × ℚ) :=
  (firstSupport paths).map fun c => (c, firstProb paths c)

/-- The start transition of `update_simulation`, `sim.py` lines 93-97: draw a
starting city from the first-city distribution and open a fresh active
session on it.  The result is `none` only when the draw itself fails (empty
population or an out-of-range draw), which the Python call would raise on. -/
def startSim (paths : List Path) (mode : Mode) (r : ℚ) : Option SimSession :=
  (weightedPick (firstEntries paths) r).map fun c => ⟨[c], c, true, mode⟩

/-- The keys of the distribution consulted by a tick, `sim.py` lines 102-105:
the probability dicts of lines 33-40 have exactly the keys of the underlying
count dicts. -/
def simSupport (paths : List Path) (mode : Mode) (s : SimSession) : List String :=
  match mode with
  | .memoryless => memSupport paths s.current
  | .pathBased => pathSupport paths s.visited

/-- The probability weight a tick samples with, `sim.py` line 156. -/
def simProb (paths : List Path) (mode : Mode) (s : SimSession) (b : String) : ℚ :=
  match mode with
  | .memoryless => memProb paths s.current b
  | .pathBased => pathProb paths s.visited b

/-- The population and weights of the next-city draw, `sim.py` line 156. -/
def simEntries (paths : List Path) (mode : Mode) (s : SimSession) : List (String × ℚ) :=
  (simSupport paths mode s).map fun b => (b, simProb paths mode s b)

/-- The running-state tick of `update_simulation`, `sim.py` lines 99-158:
when the active distribution for the current position is empty, clear the
active flag (lines 107-108); otherwise draw a next city, append it and make
it current (lines 156-158).  The draw is modelled by the explicit uniform
value `r`; the fallback branch for a failed draw is unreachable for draws in
`[0, total)` and returns the session unchanged. -/
def tick (paths : List Path) (mode : Mode) (s : SimSession) (r : ℚ) : SimSession :=
  if (simSupport paths mode s).isEmpty then { s with active := false }
  else
    match weightedPick (simEntries paths mode s) r with
    | some c => { s with visited := s.visited ++ [c], current := c }
    | none => s

/-- The historical traveler lookup of `sim.py` line 148:
`traveler_paths.get(tuple(visited_places), "Unknown Traveler")`.  The dict
`traveler_paths` of line 22 maps each traveler path to the traveler name;
on duplicate paths the later assignment wins, so the lookup returns the last
matching traveler. -/
def travelerLookup (travelers : List (String × Path)) (visited : Path) : String :=
  match (travelers.filter fun t => t.2 == visited).getLast? with
  | some t => t.1
  | none => "Unknown Traveler"

/-- The completion report of `sim.py` lines 147-153: in path-based mode the
traveler recovered from the visited sequence, otherwise a plain completion
message. -/
def finishedReport (travelers : List (String × Path)) (mode : Mode) (visited : Path) : String :=
  match mode with
  | .pathBased => travelerLookup travelers visited
  | .memoryless => "Simulation complete!"

/-- Invariant relating the two fields of a walker session: the current city
is the last visited place. -/
def SessionInv (s : Session) : Prop :=
  s.visited ≠ [] → s.visited.getLast? = some s.current

/-- Invariant relating the fields of a simulator session. -/
def SimInv (s : SimSession) : Prop :=
  s.visited ≠ [] → s.visited.getLast? = some s.current

/-- The worked example of the specification: travelers
A with path [Paris, Rome, Paris, Venice] and B with path [Paris, Venice]. -/
def exPaths : List Path :=
  [["Paris", "Rome", "Paris", "Venice"], ["Paris", "Venice"]]

/-- The same example with the traveler names attached. -/
def exTravelers : List (String × Path) :=
  [("A", ["Paris", "Rome", "Paris", "Venice"]), ("B", ["Paris", "Venice"])]

theorem adjPairs_cons_cons (a b : String) (l : List String) :
    adjPairs (a :: b :: l) = (a, b) :: adjPairs (b :: l) := rfl

theorem adjPairs_nil : adjPairs [] = [] := rfl

theorem adjPairs_single (a : String) : adjPairs [a] = [] := rfl

theorem buildPath_firstCity (l : List String) : ∀ (t : Tables) (pref : List String),
    (buildPath t pref l).firstCity = t.firstCity := by
  induction l with
  | nil => intro t pref; rfl
  | cons a tl ih =>
    cases tl with
    | nil => intro t pref; rfl
    | cons b rest =>
      intro t pref
      rw [buildPath, ih]

theorem buildPath_memoryless (l : List String) : ∀ (t : Tables) (pref : List String)
    (a b : String),
    (buildPath t pref l).memoryless a b =
      t.memoryless a b + (adjPairs l).countP (fun q => q.1 == a && q.2 == b) := by
  induction l with
  | nil => intro t pref a b; simp [buildPath, adjPairs_nil]
  | cons x tl ih =>
    cases tl with
    | nil => intro t pref a b; simp [buildPath, adjPairs_single]
    | cons y rest =>
      intro t pref a b
      rw [buildPath, ih, adjPairs_cons_cons, List.countP_cons]
      simp only [bumpMem]
      by_cases h1 : a = x ∧ b = y
      · have hcond : (((x, y).1 == a && (x, y).2 == b) = true) := by
          simp only [Bool.and_eq_true, beq_iff_eq]
          exact ⟨h1.1.symm, h1.2.symm⟩
        rw [if_pos h1, if_pos hcond]
        omega
      · have hcond : ¬ (((x, y).1 == a && (x, y).2 == b) = true) := by
          simp only [Bool.and_eq_true, beq_iff_eq]
          rintro ⟨hx, hy⟩
          exact h1 ⟨hx.symm, hy.symm⟩
        rw [if_neg h1, if_neg hcond]
        omega

theorem buildPath_pathBased (l : List String) : ∀ (t : Tables) (pref : List String)
    (k : List String) (c : String),
    (buildPath t pref l).pathBased k c =
      t.pathBased k c + (stepsFrom pref l).countP (fun q => q.1 == k && q.2 == c) := by
  induction l with
  | nil => intro t pref k c; simp [buildPath, stepsFrom]
  | cons x tl ih =>
    cases tl with
    | nil => intro t pref k c; simp [buildPath, stepsFrom]
    | cons y rest =>
      intro t pref k c
      rw [buildPath, ih, stepsFrom, List.countP_cons]
      simp only [bumpPath]
      by_cases h1 : k = pref ++ [x] ∧ c = y
      · have hcond : (((pref ++ [x], y).1 == k && (pref ++ [x], y).2 == c) = true) := by
          simp only [Bool.and_eq_true, beq_iff_eq]
          exact ⟨h1.1.symm, h1.2.symm⟩
        rw [if_pos h1, if_pos hcond]
        omega
      · have hcond : ¬ (((pref ++ [x], y).1 == k && (pref ++ [x], y).2 == c) = true) := by
          simp only [Bool.and_eq_true, beq_iff_eq]
          rintro ⟨hk, hc⟩
          exact h1 ⟨hk.symm, hc.symm⟩
        rw [if_neg h1, if_neg hcond]
        omega

theorem stepsFrom_eq (l : List String) : ∀ pref : List String,
    stepsFrom pref l =
      (List.range (l.length - 1)).map
        (fun i => (pref ++ l.take (i + 1), l.getD (i + 1) "")) := by
  induction l with
  | nil => intro pref; simp [stepsFrom]
  | cons x tl ih =>
    cases tl with
    | nil => intro pref; simp [stepsFrom]
    | cons y rest =>
      intro pref
      rw [stepsFrom, ih]
      simp only [List.length_cons, Nat.add_sub_cancel]
      rw [List.range_succ_eq_map]
      simp only [List.map_cons, List.map_map]
      congr 1
      apply List.map_congr_left
      intro i _
      simp only [Function.comp_apply, Nat.succ_eq_add_one]
      rw [List.take_succ_cons, List.append_assoc]
      rfl

theorem stepsFrom_nil_eq_histSteps (p : Path) : stepsFrom [] p = histSteps p := by
  rw [stepsFrom_eq, histSteps]
  simp

theorem buildStep_firstCity (t : Tables) (p : Path) (c : String) :
    (buildStep t p).firstCity c =
      t.firstCity c + (if p.head? = some c then 1 else 0) := by
  rw [buildStep, buildPath_firstCity]
  cases hp : p.head? with
  | none => simp [hp]
  | some a =>
    simp only [bumpCity, hp]
    by_cases hca : c = a
    · subst hca
      rw [if_pos rfl, if_pos rfl]
    · rw [if_neg hca, if_neg (fun h => hca (Option.some_inj.mp h).symm)]
      omega

theorem buildStep_memoryless (t : Tables) (p : Path) (a b : String) :
    (buildStep t p).memoryless a b =
      t.memoryless a b + ((adjPairs p).countP fun q => q.1 == a && q.2 == b) := by
  rw [buildStep, buildPath_memoryless]
  cases p.head? <;> rfl

theorem buildStep_pathBased (t : Tables) (p : Path) (k : List String) (c : String) :
    (buildStep t p).pathBased k c =
      t.pathBased k c + ((histSteps p).countP fun q => q.1 == k && q.2 == c) := by
  rw [buildStep, buildPath_pathBased, stepsFrom_nil_eq_histSteps]
  cases p.head? <;> rfl

theorem foldl_buildStep_firstCity (paths : List Path) : ∀ (t : Tables) (c : String),
    (paths.foldl buildStep t).firstCity c =
      t.firstCity c + paths.countP (fun p => p.head? == some c) := by
  induction paths with
  | nil => intro t c; simp
  | cons p ps ih =>
    intro t c
    rw [List.foldl_cons, ih, buildStep_firstCity, List.countP_cons]
    by_cases h : p.head? = some c
    · rw [if_pos h, if_pos (by simpa using h)]
      omega
    · rw [if_neg h, if_neg (by simpa using h)]
      omega

theorem foldl_buildStep_memoryless (paths : List Path) : ∀ (t : Tables) (a b : String),
    (paths.foldl buildStep t).memoryless a b =
      t.memoryless a b + ((paths.flatMap adjPairs).countP fun q => q.1 == a && q.2 == b) := by
  induction paths with
  | nil => intro t a b; simp
  | cons p ps ih =>
    intro t a b
    rw [List.foldl_cons, ih, buildStep_memoryless, List.flatMap_cons, List.countP_append]
    omega

theorem foldl_buildStep_pathBased (paths : List Path) : ∀ (t : Tables) (k : List String)
    (c : String),
    (paths.foldl buildStep t).pathBased k c =
      t.pathBased k c + ((paths.flatMap histSteps).countP fun q => q.1 == k && q.2 == c) := by
  induction paths with
  | nil => intro t k c; simp
  | cons p ps ih =>
    intro t k c
    rw [List.foldl_cons, ih, buildStep_pathBased, List.flatMap_cons, List.countP_append]
    omega

theorem buildTables_firstCity (paths : List Path) (c : String) :
    (buildTables paths).firstCity c = paths.countP (fun p => p.head? == some c) := by
  rw [buildTables, foldl_buildStep_firstCity]
  simp [Tables.empty]

theorem buildTables_memoryless (paths : List Path) (a b : String) :
    (buildTables paths).memoryless a b =
      ((paths.flatMap adjPairs).countP fun q => q.1 == a && q.2 == b) := by
  rw [buildTables, foldl_buildStep_memoryless]
  simp [Tables.empty]

theorem buildTables_pathBased (paths : List Path) (k : List String) (c : String) :
    (buildTables paths).pathBased k c =
      ((paths.flatMap histSteps).countP fun q => q.1 == k && q.2 == c) := by
  rw [buildTables, foldl_buildStep_pathBased]
  simp [Tables.empty]

/-- C1: processing one further traveler path `p = [c0, ..., cn]` increments
the first-city count of `c0` by one, increments the memoryless entry
`memoryless[a][b]` once for every adjacent pair of `p` equal to `(a, b)`,
and increments the path-based entry `path_based[k][c]` once for every history
pair of `p` equal to `(k, c)`, where the history pairs of `p` are exactly the
pairs `((c0..c_(k-1)), ck)` for each length `k` from 1 to `n` - the key is
the entire walked history, not just the immediate predecessor. -/
theorem builder_increments_per_path (paths : List Path) (p : Path) :
    (∀ c, (buildTables (paths ++ [p])).firstCity c =
        (buildTables paths).firstCity c + (if p.head? = some c then 1 else 0))
    ∧ (∀ a b, (buildTables (paths ++ [p])).memoryless a b =
        (buildTables paths).memoryless a b +
          ((adjPairs p).countP fun q => q.1 == a && q.2 == b))
    ∧ (∀ k c, (buildTables (paths ++ [p])).pathBased k c =
        (buildTables paths).pathBased k c +
          ((histSteps p).countP fun q => q.1 == k && q.2 == c))
    ∧ histSteps p =
        (List.range (p.length - 1)).map
          (fun i => (p.take (i + 1), p.getD (i + 1) "")) := by
  refine ⟨fun c => ?_, fun a b => ?_, fun k c => ?_, rfl⟩
  · rw [buildTables, buildTables, List.foldl_append, List.foldl_cons, List.foldl_nil,
      buildStep_firstCity]
  · rw [buildTables, buildTables, List.foldl_append, List.foldl_cons, List.foldl_nil,
      buildStep_memoryless]
  · rw [buildTables, buildTables, List.foldl_append, List.foldl_cons, List.foldl_nil,
      buildStep_pathBased]

/-- C2 counterexample: the specification's worked example fails on the code.
On travelers A = [Paris, Rome, Paris, Venice] and B = [Paris, Venice] the
builder records the adjacent pair (Paris, Venice) twice - once from A and
once from B - so memoryless[Paris][Venice] is 2, not 1, and memoryless[Paris]
is not the dict mapping Rome and Venice each to 1 with a 50/50 split. -/
theorem example_tables_counterexample :
    (buildTables exPaths).memoryless "Paris" "Venice" = 2
    ∧ ¬ (buildTables exPaths).memoryless "Paris" "Venice" = 1 := by
  decide

/-- C2 amended: on the two traveler paths A = [Paris, Rome, Paris, Venice]
and B = [Paris, Venice] the builder produces
memoryless[Paris] = (Rome: 1, Venice: 2) with probabilities 1/3 and 2/3,
path_based[(Paris,)] = (Rome: 1, Venice: 1),
path_based[(Paris, Rome)] = (Paris: 1), and
first_city_distribution = (Paris: 1.0).  The support lists pin the dict keys
down exactly. -/
theorem example_tables_amended :
    memSupport exPaths "Paris" = ["Rome", "Venice"]
    ∧ (buildTables exPaths).memoryless "Paris" "Rome" = 1
    ∧ (buildTables exPaths).memoryless "Paris" "Venice" = 2
    ∧ memProb exPaths "Paris" "Rome" = 1/3
    ∧ memProb exPaths "Paris" "Venice" = 2/3
    ∧ pathSupport exPaths ["Paris"] = ["Rome", "Venice"]
    ∧ (buildTables exPaths).pathBased ["Paris"] "Rome" = 1
    ∧ (buildTables exPaths).pathBased ["Paris"] "Venice" = 1
    ∧ pathSupport exPaths ["Paris", "Rome"] = ["Paris"]
    ∧ (buildTables exPaths).pathBased ["Paris", "Rome"] "Paris" = 1
    ∧ firstSupport exPaths = ["Paris"]
    ∧ firstProb exPaths "Paris" = 1 := by
  refine ⟨by decide, by decide, by decide, ?_, ?_, by decide, by decide, by decide,
    by decide, by decide, by decide, ?_⟩
  · have h1 : (buildTables exPaths).memoryless "Paris" "Rome" = 1 := by decide
    have h2 : memTotal exPaths "Paris" = 3 := by decide
    simp only [memProb, h1, h2]
    norm_num
  · have h1 : (buildTables exPaths).memoryless "Paris" "Venice" = 2 := by decide
    have h2 : memTotal exPaths "Paris" = 3 := by decide
    simp only [memProb, h1, h2]
    norm_num
  · have h1 : (buildTables exPaths).firstCity "Paris" = 2 := by decide
    have h2 : firstTotal exPaths = 2 := by decide
    simp only [firstProb, h1, h2]
    norm_num

theorem list_sum_map_div (l : List String) (f : String → ℚ) (T : ℚ) :
    (l.map fun b => f b / T).sum = (l.map f).sum / T := by
  induction l with
  | nil => simp
  | cons a tl ih => simp [ih, add_div]

theorem norm_sum_one (l : List String) (f : String → Nat) (h : (l.map f).sum ≠ 0) :
    (l.map fun b => ((f b : ℚ) / (((l.map f).sum : Nat) : ℚ))).sum = 1 := by
  rw [list_sum_map_div]
  have hc : (l.map fun b => ((f b : ℚ))) = ((l.map f).map fun n => ((n : Nat) : ℚ)) := by
    rw [List.map_map]
    rfl
  rw [hc, ← Nat.cast_list_sum]
  exact div_self (by exact_mod_cast h)

/-- C3: for any source place with at least one outgoing transition and any
history key with at least one outgoing transition, the derived probability of
each next place is its count divided by the total outgoing count of that
source, and the probabilities over the keys of that source sum to exactly 1
in rational arithmetic. -/
theorem probabilities_normalized (paths : List Path) (a : String) (k : List String)
    (ha : memTotal paths a ≠ 0) (hk : pathTotal paths k ≠ 0) :
    (∀ b, memProb paths a b =
        ((buildTables paths).memoryless a b : ℚ) / (memTotal paths a : ℚ))
    ∧ ((memSupport paths a).map (memProb paths a)).sum = 1
    ∧ (∀ b, pathProb paths k b =
        ((buildTables paths).pathBased k b : ℚ) / (pathTotal paths k : ℚ))
    ∧ ((pathSupport paths k).map (pathProb paths k)).sum = 1 := by
  refine ⟨fun b => rfl, ?_, fun b => rfl, ?_⟩
  · exact norm_sum_one (memSupport paths a) ((buildTables paths).memoryless a) ha
  · exact norm_sum_one (pathSupport paths k) ((buildTables paths).pathBased k) hk

/-- Witness for C3 at the worked example: the source place Paris and the
history key (Paris,) both have outgoing transitions, and the memoryless
probabilities out of Paris sum to 1. -/
theorem probabilities_normalized_witness :
    memTotal exPaths "Paris" ≠ 0 ∧ pathTotal exPaths ["Paris"] ≠ 0
    ∧ ((memSupport exPaths "Paris").map (memProb exPaths "Paris")).sum = 1 :=
  ⟨by decide, by decide,
    (probabilities_normalized exPaths "Paris" ["Paris"] (by decide) (by decide)).2.1⟩

theorem mem_memSupport_iff (paths : List Path) (a b : String) :
    b ∈ memSupport paths a ↔ 0 < (buildTables paths).memoryless a b := by
  rw [buildTables_memoryless, memSupport, List.mem_dedup, List.countP_pos_iff]
  simp only [List.mem_map, List.mem_filter, beq_iff_eq, Bool.and_eq_true]
  constructor
  · rintro ⟨q, ⟨hq, ha⟩, rfl⟩
    exact ⟨q, hq, ha, rfl⟩
  · rintro ⟨q, hq, ha, hb⟩
    exact ⟨q, ⟨hq, ha⟩, hb⟩

theorem mem_pathSupport_iff (paths : List Path) (k : List String) (b : String) :
    b ∈ pathSupport paths k ↔ 0 < (buildTables paths).pathBased k b := by
  rw [buildTables_pathBased, pathSupport, List.mem_dedup, List.countP_pos_iff]
  simp only [List.mem_map, List.mem_filter, beq_iff_eq, Bool.and_eq_true]
  constructor
  · rintro ⟨q, ⟨hq, ha⟩, rfl⟩
    exact ⟨q, hq, ha, rfl⟩
  · rintro ⟨q, hq, ha, hb⟩
    exact ⟨q, ⟨hq, ha⟩, hb⟩

theorem mem_stepSupport_iff (paths : List Path) (mode : Mode) (s : Session) (cand : String) :
    cand ∈ stepSupport paths mode s ↔ 0 < activeCount paths mode s cand := by
  cases mode with
  | memoryless => exact mem_memSupport_iff paths s.current cand
  | pathBased => exact mem_pathSupport_iff paths s.visited cand

/-- C4: the interactive step appends the candidate city to the visited list
and makes it current exactly when the candidate is a recorded key of the
active distribution (positive count in the path-based table of the full
visited history, or in the memoryless table of the current city); for any
other candidate the returned session equals the input session, with no error
surfaced. -/
theorem step_valid_or_noop (paths : List Path) (mode : Mode) (s : Session) (cand : String) :
    (0 < activeCount paths mode s cand →
        step paths mode s cand = ⟨s.visited ++ [cand], cand⟩)
    ∧ (activeCount paths mode s cand = 0 → step paths mode s cand = s) := by
  constructor
  · intro h
    rw [step, if_pos ((mem_stepSupport_iff paths mode s cand).mpr h)]
  · intro h
    rw [step, if_neg]
    intro hmem
    rw [mem_stepSupport_iff paths mode s cand, h] at hmem
    exact Nat.lt_irrefl 0 hmem

/-- Witness for C4 at the worked example: from current city Paris the
candidate Rome has a recorded transition and is appended; the candidate
Berlin has none and the session is returned unchanged. -/
theorem step_valid_or_noop_witness :
    0 < activeCount exPaths .memoryless ⟨["Paris"], "Paris"⟩ "Rome"
    ∧ step exPaths .memoryless ⟨["Paris"], "Paris"⟩ "Rome" = ⟨["Paris", "Rome"], "Rome"⟩
    ∧ activeCount exPaths .memoryless ⟨["Paris"], "Paris"⟩ "Berlin" = 0
    ∧ step exPaths .memoryless ⟨["Paris"], "Paris"⟩ "Berlin" = ⟨["Paris"], "Paris"⟩ :=
  ⟨by decide,
   (step_valid_or_noop exPaths .memoryless ⟨["Paris"], "Paris"⟩ "Rome").1 (by decide),
   by decide,
   (step_valid_or_noop exPaths .memoryless ⟨["Paris"], "Paris"⟩ "Berlin").2 (by decide)⟩

theorem mergeSort_single {α : Type} (e : α) (le : α → α → Bool) :
    [e].mergeSort le = [e] :=
  List.perm_singleton.mp (List.mergeSort_perm [e] le)

/-- C5: the top-N query returns at most 5 entries, the returned entries are
sorted by count descending, every returned entry is an item of the active
distribution, and the percentage reported for a returned count is the count
divided by the total outgoing count of the current position times 100, or 0
when that total is 0. -/
theorem topN_sorted_bounded (paths : List Path) (mode : Mode) (s : Session) :
    (topDestinations paths mode s).length ≤ 5
    ∧ (topDestinations paths mode s).Pairwise (fun e f => f.2 ≤ e.2)
    ∧ (∀ e ∈ topDestinations paths mode s, e ∈ distEntries paths mode s)
    ∧ (∀ e ∈ topDestinations paths mode s,
        sharePercent paths mode s e.2 =
          if 0 < totalTransitions paths mode s then
            ((e.2 : ℚ) / (totalTransitions paths mode s : ℚ)) * 100
          else 0) := by
  refine ⟨List.length_take_le 5 _, ?_, ?_, fun e _ => rfl⟩
  · have hs : ((distEntries paths mode s).mergeSort fun e f => Nat.ble f.2 e.2).Pairwise
        (fun e f => (Nat.ble f.2 e.2) = true) := by
      apply List.sorted_mergeSort
      · intro a b c hab hbc
        simp only [Nat.ble_eq] at hab hbc ⊢
        exact le_trans hbc hab
      · intro a b
        rcases Nat.le_total b.2 a.2 with h | h
        · simp [Nat.ble_eq, h]
        · simp [Nat.ble_eq, h]
    have hp := hs.sublist (List.take_sublist 5 _)
    exact hp.imp (fun h => by simpa [Nat.ble_eq] using h)
  · intro e he
    have h1 : e ∈ (distEntries paths mode s).mergeSort fun e f => Nat.ble f.2 e.2 :=
      List.mem_of_mem_take he
    exact (List.mergeSort_perm (distEntries paths mode s) _).mem_iff.mp h1

/-- Witness for C5: in path-based mode after [Paris, Rome] the single
displayed destination (Paris, count 1) is an item of the active
distribution. -/
theorem topN_sorted_bounded_witness :
    ("Paris", 1) ∈ distEntries exPaths .pathBased ⟨["Paris", "Rome"], "Rome"⟩ := by
  have hd : distEntries exPaths .pathBased ⟨["Paris", "Rome"], "Rome"⟩ = [("Paris", 1)] := by
    decide
  have hmem : ("Paris", 1) ∈ topDestinations exPaths .pathBased ⟨["Paris", "Rome"], "Rome"⟩ := by
    rw [topDestinations, hd, mergeSort_single]
    simp
  exact (topN_sorted_bounded exPaths .pathBased ⟨["Paris", "Rome"], "Rome"⟩).2.2.1 _ hmem

/-- C6: for a running session, a tick clears the active flag exactly when
the active distribution for the current position is empty, and leaves the
session active whenever it is non-empty; moreover a place that never occurs
as the source of an adjacent pair, or a visited history that never occurs as
a walked history, yields an empty key set - terminal, not an error. -/
theorem tick_terminates_iff_empty (paths : List Path) (mode : Mode) (s : SimSession)
    (r : ℚ) (h : s.active = true) :
    ((tick paths mode s r).active = false ↔ simSupport paths mode s = [])
    ∧ (mode = Mode.memoryless →
        (∀ q ∈ paths.flatMap adjPairs, q.1 ≠ s.current) → simSupport paths mode s = [])
    ∧ (mode = Mode.pathBased →
        (∀ q ∈ paths.flatMap histSteps, q.1 ≠ s.visited) → simSupport paths mode s = []) := by
  refine ⟨?_, ?_, ?_⟩
  · by_cases he : (simSupport paths mode s).isEmpty
    · rw [tick, if_pos he]
      simp only [List.isEmpty_iff] at he
      simpa using he
    · rw [tick, if_neg he]
      simp only [List.isEmpty_iff] at he
      cases hp : weightedPick (simEntries paths mode s) r with
      | some c => simp [h, he]
      | none => simp [h, he]
  · rintro rfl hnone
    simp only [simSupport, memSupport]
    have : (paths.flatMap adjPairs).filter (fun q => q.1 == s.current) = [] := by
      rw [List.filter_eq_nil_iff]
      intro q hq
      simpa using hnone q hq
    rw [this]
    rfl
  · rintro rfl hnone
    simp only [simSupport, pathSupport]
    have : (paths.flatMap histSteps).filter (fun q => q.1 == s.visited) = [] := by
      rw [List.filter_eq_nil_iff]
      intro q hq
      simpa using hnone q hq
    rw [this]
    rfl

/-- Witness for C6: a running memoryless session at Venice, a place with no
recorded outgoing transition, is terminated by the tick. -/
theorem tick_terminates_witness :
    (⟨["Venice"], "Venice", true, Mode.memoryless⟩ : SimSession).active = true
    ∧ ((tick exPaths .memoryless ⟨["Venice"], "Venice", true, Mode.memoryless⟩ 0).active = false
        ↔ simSupport exPaths .memoryless ⟨["Venice"], "Venice", true, Mode.memoryless⟩ = []) :=
  ⟨rfl,
   (tick_terminates_iff_empty exPaths .memoryless
      ⟨["Venice"], "Venice", true, Mode.memoryless⟩ 0 rfl).1⟩

/-- C7: the report of a finished path-based simulation names a historical
traveler whose full path equals the visited sequence whenever one exists,
and is the sentinel string Unknown Traveler when no traveler path matches
exactly - no failure in either case. -/
theorem finished_traveler_lookup (travelers : List (String × Path)) (visited : Path) :
    ((∃ t ∈ travelers, t.2 = visited) →
        ∃ t ∈ travelers, t.2 = visited ∧
          finishedReport travelers .pathBased visited = t.1)
    ∧ ((∀ t ∈ travelers, t.2 ≠ visited) →
        finishedReport travelers .pathBased visited = "Unknown Traveler") := by
  constructor
  · rintro ⟨t, ht, he⟩
    have htf : t ∈ travelers.filter fun u => u.2 == visited :=
      List.mem_filter.mpr ⟨ht, by simpa using he⟩
    cases hg : (travelers.filter fun u => u.2 == visited).getLast? with
    | none =>
      rw [List.getLast?_eq_none_iff] at hg
      rw [hg] at htf
      exact absurd htf (List.not_mem_nil t)
    | some u =>
      obtain ⟨hne, hu⟩ := List.mem_getLast?_eq_getLast (Option.mem_def.mpr hg)
      have humem : u ∈ travelers.filter fun v => v.2 == visited := by
        rw [hu]
        exact List.getLast_mem hne
      rw [List.mem_filter] at humem
      refine ⟨u, humem.1, by simpa using humem.2, ?_⟩
      rw [finishedReport, travelerLookup, hg]
  · intro hall
    have hfe : (travelers.filter fun u => u.2 == visited) = [] := by
      rw [List.filter_eq_nil_iff]
      intro t ht
      simpa using hall t ht
    rw [finishedReport, travelerLookup, hfe]
    rfl

/-- Witness for C7 at the worked example: the finished visited sequence
[Paris, Venice] is reported as traveler B, and the sequence [Paris, Rome],
which is no traveler's full path, is reported as Unknown Traveler. -/
theorem finished_traveler_lookup_witness :
    (∃ t ∈ exTravelers, t.2 = ["Paris", "Venice"] ∧
        finishedReport exTravelers .pathBased ["Paris", "Venice"] = t.1)
    ∧ finishedReport exTravelers .pathBased ["Paris", "Rome"] = "Unknown Traveler" :=
  ⟨(finished_traveler_lookup exTravelers ["Paris", "Venice"]).1
      ⟨("B", ["Paris", "Venice"]), by decide, rfl⟩,
   (finished_traveler_lookup exTravelers ["Paris", "Rome"]).2 (by decide)⟩

theorem weightedPick_mem_pos (entries : List (String × ℚ)) : ∀ r : ℚ, 0 ≤ r →
    (∀ q ∈ entries, 0 ≤ q.2) → ∀ e, weightedPick entries r = some e →
    ∃ q ∈ entries, q.1 = e ∧ 0 < q.2 := by
  induction entries with
  | nil =>
    intro r _ _ e h
    simp [weightedPick] at h
  | cons q rest ih =>
    intro r hr hw e h
    obtain ⟨c, w⟩ := q
    rw [weightedPick] at h
    by_cases hlt : r < w
    · rw [if_pos hlt] at h
      obtain rfl : c = e := Option.some_inj.mp h
      exact ⟨(c, w), List.mem_cons_self _ _, rfl, lt_of_le_of_lt hr hlt⟩
    · rw [if_neg hlt] at h
      push_neg at hlt
      have h0 : (0 : ℚ) ≤ r - w := by linarith
      obtain ⟨q2, hq2, he, hp⟩ :=
        ih (r - w) h0 (fun u hu => hw u (List.mem_cons_of_mem _ hu)) e h
      exact ⟨q2, List.mem_cons_of_mem _ hq2, he, hp⟩

/-- C8: the weighted draw, modelled as a function of the uniform value in
[0, total), walks the cumulative weights and returns the first entry whose
cumulative weight exceeds the draw; a single-entry distribution is returned
for every in-range draw, and over non-negative weights the returned place
always carries a positive weight - a zero-weight entry is never selected. -/
theorem weighted_pick_spec (entries : List (String × ℚ)) (r : ℚ) (c : String) (w : ℚ)
    (hr : 0 ≤ r) :
    (r < w → weightedPick [(c, w)] r = some c)
    ∧ ((∀ q ∈ entries, 0 ≤ q.2) → ∀ e, weightedPick entries r = some e →
        ∃ q ∈ entries, q.1 = e ∧ 0 < q.2) := by
  constructor
  · intro hlt
    rw [weightedPick, if_pos hlt]
  · intro hw e h
    exact weightedPick_mem_pos entries r hr hw e h

/-- Witness for C8: the single-entry distribution (Paris, weight 1) is
returned at draw 0, and the selected entry has positive weight. -/
theorem weighted_pick_spec_witness :
    weightedPick [("Paris", (1 : ℚ))] 0 = some "Paris"
    ∧ ∃ q ∈ [("Paris", (1 : ℚ))], q.1 = "Paris" ∧ 0 < q.2 := by
  have h1 := (weighted_pick_spec [("Paris", (1 : ℚ))] 0 "Paris" 1 le_rfl).1 (by norm_num)
  exact ⟨h1,
    (weighted_pick_spec [("Paris", (1 : ℚ))] 0 "Paris" 1 le_rfl).2
      (by intro q hq; simp at hq; rw [hq]; norm_num) "Paris" h1⟩

/-- C10: every session produced by the interactive step, the simulator start
or the simulator tick satisfies the invariant that the current city is the
last visited place whenever the visited list is non-empty; step and tick
preserve the invariant, and start establishes it. -/
theorem session_invariant_preserved (paths : List Path) (mode : Mode) (s : Session)
    (t : SimSession) (cand : String) (r u : ℚ)
    (hs : SessionInv s) (ht : SimInv t) :
    SessionInv (step paths mode s cand)
    ∧ (∀ v ∈ startSim paths mode r, SimInv v)
    ∧ SimInv (tick paths mode t u) := by
  refine ⟨?_, ?_, ?_⟩
  · rw [step]
    by_cases hmem : cand ∈ stepSupport paths mode s
    · rw [if_pos hmem]
      intro _
      exact List.getLast?_concat _
    · rw [if_neg hmem]
      exact hs
  · intro v hv
    rw [startSim] at hv
    cases hw : weightedPick (firstEntries paths) r with
    | none =>
      rw [hw] at hv
      simp at hv
    | some c =>
      rw [hw] at hv
      simp only [Option.map_some', Option.mem_def, Option.some.injEq] at hv
      subst hv
      intro _
      rfl
  · rw [tick]
    by_cases he : (simSupport paths mode t).isEmpty
    · rw [if_pos he]
      exact ht
    · rw [if_neg he]
      cases weightedPick (simEntries paths mode t) u with
      | some c =>
        intro _
        exact List.getLast?_concat _
      | none => exact ht

/-- Witness for C10: the invariant holds for a concrete one-city session and
is preserved when the step appends Rome. -/
theorem session_invariant_witness :
    SessionInv (⟨["Paris"], "Paris"⟩ : Session)
    ∧ SessionInv (step exPaths .memoryless ⟨["Paris"], "Paris"⟩ "Rome") :=
  ⟨fun _ => rfl,
   (session_invariant_preserved exPaths .memoryless ⟨["Paris"], "Paris"⟩
      ⟨["Paris"], "Paris", true, Mode.memoryless⟩ "Rome" 0 0
      (fun _ => rfl) (fun _ => rfl)).1⟩

end Tour
